import Mathlib

/-!
Shallow embedding of `src/types/wlr_scene.c` (wlroots scene graph).

The scene graph is a tree of nodes, each holding two `wlr_scene_node_state`
records (`pending` and `current`).  In C the children are kept in intrusive
doubly-linked `wl_list`s (one `link` per state record); here every node owns
its children in an association list `kids : List (Nat × SceneNode)` keyed by a
local child key (the model of the child object's identity for its parent), and
the two `children` lists of the two state records are represented by the two
key lists `pendingCh` / `currentCh` holding the order of those keys.  The
position fields `x`,`y` of a state record are the `XY` components.  `sid`
models the node's address (used by the destroy-notification model).  `subs`
models the external `wlr_surface_for_each_surface` expansion of a surface
node's drawable: the list of (drawable, local sx, local sy) it yields.
-/

namespace WlrScene

/-- Position fields `x`,`y` of a `struct wlr_scene_node_state`. -/
structure XY where
  x : Int
  y : Int
deriving DecidableEq, Repr

/-- Model of the external `struct wlr_surface` as seen by this file: its
current texture (`wlr_surface_get_texture`, `none` when there is no
renderable texture), and its `surface->current.width/height`. -/
structure Surface where
  texture : Option Nat
  width : Int
  height : Int
deriving DecidableEq, Repr

/-- The `enum wlr_scene_node_type` discriminant. -/
inductive NodeType where
  | root
  | surface
deriving DecidableEq, Repr

/-- A `struct wlr_scene_node` together with the subtree it owns (see the
file header for the representation of the intrusive child lists). -/
inductive SceneNode where
  | mk (ntype : NodeType) (sid : Nat) (pending current : XY)
      (pendingCh currentCh : List Nat)
      (subs : List (Surface × Int × Int))
      (kids : List (Nat × SceneNode)) : SceneNode

def SceneNode.ntype : SceneNode → NodeType
  | .mk t _ _ _ _ _ _ _ => t

def SceneNode.sid : SceneNode → Nat
  | .mk _ s _ _ _ _ _ _ => s

def SceneNode.pending : SceneNode → XY
  | .mk _ _ p _ _ _ _ _ => p

def SceneNode.current : SceneNode → XY
  | .mk _ _ _ c _ _ _ _ => c

def SceneNode.pendingCh : SceneNode → List Nat
  | .mk _ _ _ _ pch _ _ _ => pch

def SceneNode.currentCh : SceneNode → List Nat
  | .mk _ _ _ _ _ cch _ _ => cch

def SceneNode.subs : SceneNode → List (Surface × Int × Int)
  | .mk _ _ _ _ _ _ ss _ => ss

def SceneNode.kids : SceneNode → List (Nat × SceneNode)
  | .mk _ _ _ _ _ _ _ ks => ks

/-- Look a child up by key in the owned-children association list. -/
def lookupKid : List (Nat × SceneNode) → Nat → Option SceneNode
  | [], _ => none
  | (j, k) :: rest, i => if j = i then some k else lookupKid rest i

theorem lookupKid_sizeOf {kids : List (Nat × SceneNode)} {i : Nat}
    {k : SceneNode} (h : lookupKid kids i = some k) :
    sizeOf k + 1 < sizeOf kids := by
  induction kids with
  | nil => simp [lookupKid] at h
  | cons hd tl ih =>
    obtain ⟨j, k0⟩ := hd
    simp only [lookupKid] at h
    split at h
    · cases h
      simp only [List.cons.sizeOf_spec, Prod.mk.sizeOf_spec]
      omega
    · have := ih h
      simp only [List.cons.sizeOf_spec, Prod.mk.sizeOf_spec]
      omega

/-- Effect on a children order list of the reordering loop in
`wlr_scene_node_commit` (`src/types/wlr_scene.c:128-132`): every child
linked in `pending.children` is unlinked from `current.children` and
re-linked at the back, in pending order; children linked only in
`current.children` keep their places at the front. -/
def commitOrder (cur pend : List Nat) : List Nat :=
  cur.filter (fun c => !(pend.elem c)) ++ pend

mutual

/-- `wlr_scene_node_commit` (`src/types/wlr_scene.c:125-137`): copy
`pending.{x,y}` into `current.{x,y}` (`scene_node_state_move`), move each
pending child's `current.link` to the back of `current.children` in pending
order, then recurse into every child now linked in `current.children`. -/
def wlr_scene_node_commit : SceneNode → SceneNode
  | .mk t sid p _c pch cch subs kids =>
    .mk t sid p p pch (commitOrder cch pch) subs
      (commitKids (commitOrder cch pch) kids)

/-- Apply the recursive step of `wlr_scene_node_commit` to every owned child
whose key is linked in the new `current.children` order. -/
def commitKids (cch : List Nat) : List (Nat × SceneNode) → List (Nat × SceneNode)
  | [] => []
  | (i, k) :: rest =>
    (i, if cch.elem i then wlr_scene_node_commit k else k) :: commitKids cch rest

end

/-- `wlr_scene_node_move` (`src/types/wlr_scene.c:139-142`): set
`node->pending.x` and `node->pending.y`. -/
def wlr_scene_node_move : SceneNode → Int → Int → SceneNode
  | .mk t sid _p c pch cch subs kids, x, y =>
    .mk t sid ⟨x, y⟩ c pch cch subs kids

/-- Insert `node` immediately after the first occurrence of `sibling`:
the effect of `wl_list_insert(&sibling->pending.link, &node->pending.link)`
on a well-formed list containing `sibling`. -/
def insertAfter (l : List Nat) (sibling node : Nat) : List Nat :=
  match l with
  | [] => []
  | c :: rest =>
    if c = sibling then c :: node :: rest else c :: insertAfter rest sibling node

/-- Insert `node` immediately before the first occurrence of `sibling`:
the effect of `wl_list_insert(sibling->pending.link.prev, &node->pending.link)`
on a well-formed list containing `sibling`. -/
def insertBefore (l : List Nat) (sibling node : Nat) : List Nat :=
  match l with
  | [] => []
  | c :: rest =>
    if c = sibling then node :: c :: rest else c :: insertBefore rest sibling node

/-- `wlr_scene_node_place_above` (`src/types/wlr_scene.c:144-150`) viewed
from the common parent's `pending.children` order: unlink `node`
(`wl_list_remove`), re-link it immediately after `sibling`
(`wl_list_insert(&sibling->pending.link, ...)`). -/
def wlr_scene_node_place_above : SceneNode → Nat → Nat → SceneNode
  | .mk t sid p c pch cch subs kids, node, sibling =>
    .mk t sid p c (insertAfter (pch.erase node) sibling node) cch subs kids

/-- `wlr_scene_node_place_below` (`src/types/wlr_scene.c:152-158`) viewed
from the common parent's `pending.children` order: unlink `node`, re-link it
immediately before `sibling`. -/
def wlr_scene_node_place_below : SceneNode → Nat → Nat → SceneNode
  | .mk t sid p c pch cch subs kids, node, sibling =>
    .mk t sid p c (insertBefore (pch.erase node) sibling node) cch subs kids

/-! ### Pointer-level model of the intrusive `wl_list`

The two place operations manipulate `wl_list` links directly, and their
behaviour in the corner case `node == sibling` is decided by the exact
pointer assignments of libwayland's `wl_list_remove` / `wl_list_insert`
(each statement modelled in program order, re-reading fields as the C
does).  A location is either the parent's `pending.children` list head or
a child's `pending.link`. -/

/-- A `struct wl_list *` value that is known to point at a list cell:
either the parent's `pending.children` head or child `n`'s `pending.link`. -/
inductive Loc where
  | head
  | elem (n : Nat)
deriving DecidableEq, Repr

/-- The `prev` / `next` fields of one `struct wl_list` cell; `none` models a
null pointer (as stored by `wl_list_remove`). -/
structure Link where
  prev : Option Loc
  next : Option Loc
deriving DecidableEq, Repr

/-- The heap of list cells relevant to one parent's `pending.children`. -/
def Links : Type := Loc → Link

/-- Pointer store `l->next = v`. -/
def setNext (ls : Links) (l : Loc) (v : Option Loc) : Links :=
  fun l2 => if l2 = l then { ls l2 with next := v } else ls l2

/-- Pointer store `l->prev = v`. -/
def setPrev (ls : Links) (l : Loc) (v : Option Loc) : Links :=
  fun l2 => if l2 = l then { ls l2 with prev := v } else ls l2

/-- Result of running a fragment of C code: normal completion, an assertion
failure (`assert` trap), or undefined behaviour from a null dereference. -/
inductive CResult (α : Type) where
  | ok (a : α)
  | assertFail
  | crash

/-- libwayland `wl_list_remove(elm)`:
`elm->prev->next = elm->next; elm->next->prev = elm->prev;
elm->next = NULL; elm->prev = NULL;` — crashes if a dereferenced field is
null. -/
def wl_list_remove (ls : Links) (elm : Loc) : CResult Links :=
  match (ls elm).prev with
  | none => .crash
  | some p =>
    let ls1 := setNext ls p ((ls elm).next)
    match (ls1 elm).next with
    | none => .crash
    | some n =>
      let ls2 := setPrev ls1 n ((ls1 elm).prev)
      .ok (setPrev (setNext ls2 elm none) elm none)

/-- libwayland `wl_list_insert(list, elm)`:
`elm->prev = list; elm->next = list->next; list->next = elm;
elm->next->prev = elm;` — `list` may be a null pointer (then the read of
`list->next` crashes). -/
def wl_list_insert (ls : Links) (list : Option Loc) (elm : Loc) : CResult Links :=
  let ls1 := setPrev ls elm list
  match list with
  | none => .crash
  | some l =>
    let ls2 := setNext ls1 elm ((ls1 l).next)
    let ls3 := setNext ls2 l (some elm)
    match (ls3 elm).next with
    | none => .crash
    | some nx => .ok (setPrev ls3 nx (some elm))

/-- `wlr_scene_node_place_above` at the pointer level, including its
`assert(node->parent == sibling->parent)`: the two parent pointers are
passed explicitly. -/
def place_above_ptr (nodeParent siblingParent : Option Nat) (ls : Links)
    (node sibling : Nat) : CResult Links :=
  if nodeParent = siblingParent then
    match wl_list_remove ls (.elem node) with
    | .ok ls1 => wl_list_insert ls1 (some (.elem sibling)) (.elem node)
    | r => r
  else .assertFail

/-- `wlr_scene_node_place_below` at the pointer level, including its
assertion; note the C reads `sibling->pending.link.prev` after the
removal. -/
def place_below_ptr (nodeParent siblingParent : Option Nat) (ls : Links)
    (node sibling : Nat) : CResult Links :=
  if nodeParent = siblingParent then
    match wl_list_remove ls (.elem node) with
    | .ok ls1 => wl_list_insert ls1 ((ls1 (.elem sibling)).prev) (.elem node)
    | r => r
  else .assertFail

/-- Walk `next` pointers starting from the cell after the head sentinel,
collecting member keys, with enough fuel; the list of children linked into
the parent's `pending.children`. -/
def chaseNext (ls : Links) : Nat → Option Loc → List Nat
  | 0, _ => []
  | _ + 1, none => []
  | _ + 1, some .head => []
  | fuel + 1, some (.elem n) => n :: chaseNext ls fuel ((ls (.elem n)).next)

/-- Members of the pointer-level list, front to back. -/
def ptrToList (ls : Links) (fuel : Nat) : List Nat :=
  chaseNext ls fuel ((ls .head).next)

/-- Whether the fragment completed normally. -/
def CResult.isOk {α : Type} : CResult α → Bool
  | .ok _ => true
  | _ => false

/-- Whether the fragment crashed on a null dereference. -/
def CResult.isCrash {α : Type} : CResult α → Bool
  | .crash => true
  | _ => false

/-- Membership of child `n` in the resulting pointer-level list after a
normally-completing place call (`false` when the call did not complete). -/
def okMember (r : CResult Links) (n fuel : Nat) : Bool :=
  match r with
  | .ok ls => (ptrToList ls fuel).elem n
  | _ => false

/-- A concrete well-formed `pending.children` list holding children 1, 2. -/
def exLinks : Links := fun l =>
  match l with
  | .head => ⟨some (.elem 2), some (.elem 1)⟩
  | .elem 1 => ⟨some .head, some (.elem 2)⟩
  | .elem 2 => ⟨some (.elem 1), some .head⟩
  | .elem _ => ⟨none, none⟩

/-! ### Surface traversal -/

mutual

/-- `scene_node_for_each_surface` (`src/types/wlr_scene.c:172-194`): add the
node's `current.{x,y}` to the running offset, expand a surface node's
drawable (each yielded drawable translated by the accumulated offset, as
`surface_iterator` does), then recurse into `current.children` in list
order.  The result is the sequence of `visitor(drawable, abs_x, abs_y)`
invocations. -/
def scene_node_for_each_surface : SceneNode → Int → Int → List (Surface × Int × Int)
  | .mk t _sid _p c _pch cch subs kids, lx, ly =>
    (if t = .surface then
      subs.map (fun e => (e.1, lx + c.x + e.2.1, ly + c.y + e.2.2))
     else []) ++
    forEachOrder kids cch (lx + c.x) (ly + c.y)
termination_by n _ _ => (sizeOf n, 0)
decreasing_by
  simp only [SceneNode.mk.sizeOf_spec]
  exact Prod.Lex.left _ _ (by omega)

/-- Iterate the `wl_list_for_each` loop of `scene_node_for_each_surface`
over a `current.children` key order. -/
def forEachOrder (kids : List (Nat × SceneNode)) :
    List Nat → Int → Int → List (Surface × Int × Int)
  | [], _, _ => []
  | i :: rest, lx, ly =>
    (match h : lookupKid kids i with
     | some k => scene_node_for_each_surface k lx ly
     | none => []) ++ forEachOrder kids rest lx ly
termination_by order _ _ => (sizeOf kids, order.length + 1)
decreasing_by
  · exact Prod.Lex.left _ _ (by have := lookupKid_sizeOf h; omega)
  · exact Prod.Lex.right _ (by simp only [List.length_cons]; omega)

end

/-- `wlr_scene_node_for_each_surface` (`src/types/wlr_scene.c:196-199`):
the public entry point starts the offset accumulator at `(0, 0)`. -/
def wlr_scene_node_for_each_surface (node : SceneNode) :
    List (Surface × Int × Int) :=
  scene_node_for_each_surface node 0 0

/-! Specification-side characterization of the traversal: nodes are
addressed by paths of child keys followed through `current.children`, and
each visited drawable's absolute position is recomputed from scratch as the
origin plus the sum of `current.{x,y}` over every node on the path plus the
drawable's own local offset. -/

mutual

/-- All paths of `current.children` keys from a node to each node of its
current subtree, in depth-first preorder, children in `current.children`
list order. -/
def specPaths : SceneNode → List (List Nat)
  | .mk _t _sid _p _c _pch cch _subs kids => [] :: specPathsOrder kids cch
termination_by n => (sizeOf n, 0)
decreasing_by
  simp only [SceneNode.mk.sizeOf_spec]
  exact Prod.Lex.left _ _ (by omega)

/-- Paths into the subtrees of the children listed in a
`current.children` order. -/
def specPathsOrder (kids : List (Nat × SceneNode)) : List Nat → List (List Nat)
  | [] => []
  | i :: rest =>
    (match h : lookupKid kids i with
     | some k => (specPaths k).map (fun p => i :: p)
     | none => []) ++ specPathsOrder kids rest
termination_by order => (sizeOf kids, order.length + 1)
decreasing_by
  · exact Prod.Lex.left _ _ (by have := lookupKid_sizeOf h; omega)
  · exact Prod.Lex.right _ (by simp only [List.length_cons]; omega)

end

/-- The node reached from `n` by following a path of `current`-side child
keys. -/
def nodeAt : SceneNode → List Nat → Option SceneNode
  | n, [] => some n
  | n, i :: rest =>
    match lookupKid n.kids i with
    | some k => nodeAt k rest
    | none => none

/-- The sum of `current.{x,y}` over every node on the path from `n`
(inclusive) to the node the path reaches (inclusive). -/
def pathOffsetSum : SceneNode → List Nat → Option (Int × Int)
  | n, [] => some (n.current.x, n.current.y)
  | n, i :: rest =>
    match lookupKid n.kids i with
    | some k =>
      (pathOffsetSum k rest).map (fun o => (n.current.x + o.1, n.current.y + o.2))
    | none => none

/-- The visitor invocations contributed by the node a path reaches: its
drawable expansion, each entry at origin + path offset sum + local offset. -/
def entriesAtPath (n : SceneNode) (lx ly : Int) (path : List Nat) :
    List (Surface × Int × Int) :=
  match nodeAt n path, pathOffsetSum n path with
  | some m, some o =>
    if m.ntype = .surface then
      m.subs.map (fun e => (e.1, lx + o.1 + e.2.1, ly + o.2 + e.2.2))
    else []
  | _, _ => []

/-! ### Destruction -/

/-- Observable events of node destruction: the node's own destroy
notification (`wlr_signal_emit_safe(&node->events.destroy, NULL)`), removal
of a surface node's surface-destroy subscription
(`wl_list_remove(&scene_surface->surface_destroy.link)`), and the final
`free`. -/
inductive DestroyEvent where
  | notify (sid : Nat)
  | unsubscribe (sid : Nat)
  | free (sid : Nat)
deriving DecidableEq, Repr

mutual

/-- `scene_node_finish` (`src/types/wlr_scene.c:46-61`): emit the destroy
notification, destroy every child linked in `current.children`, then every
child still linked in `pending.children` — a child linked in both was
unlinked from `pending.children` by its own `scene_node_state_finish`
during the first loop, so the second loop only sees pending-only
children. -/
def scene_node_finish : SceneNode → List DestroyEvent
  | .mk _t sid _p _c pch cch _subs kids =>
    .notify sid :: (destroyKids kids cch ++
      destroyKids kids (pch.filter (fun i => !(cch.elem i))))
termination_by n => (sizeOf n, 1)
decreasing_by
  · simp only [SceneNode.mk.sizeOf_spec]
    exact Prod.Lex.left _ _ (by omega)
  · simp only [SceneNode.mk.sizeOf_spec]
    exact Prod.Lex.left _ _ (by omega)

/-- Destroy, one after the other, the children whose keys are listed. -/
def destroyKids (kids : List (Nat × SceneNode)) : List Nat → List DestroyEvent
  | [] => []
  | i :: rest =>
    (match h : lookupKid kids i with
     | some k => wlr_scene_node_destroy (some k)
     | none => []) ++ destroyKids kids rest
termination_by order => (sizeOf kids, 2 + order.length)
decreasing_by
  · exact Prod.Lex.left _ _
      (by have := lookupKid_sizeOf h
          simp only [Option.some.sizeOf_spec]; omega)
  · exact Prod.Lex.right _ (by simp only [List.length_cons]; omega)

/-- `wlr_scene_node_destroy` (`src/types/wlr_scene.c:63-83`): a null node is
a no-op; otherwise run `scene_node_finish`, for a surface node remove the
surface-destroy subscription, and free the node. -/
def wlr_scene_node_destroy : Option SceneNode → List DestroyEvent
  | none => []
  | some n =>
    scene_node_finish n ++
      (if n.ntype = .surface then [.unsubscribe n.sid] else []) ++ [.free n.sid]
termination_by n => (sizeOf n, 0)
decreasing_by
  exact Prod.Lex.left _ _ (by simp only [Option.some.sizeOf_spec]; omega)

end

mutual

/-- The node addresses of a node and all nodes it owns. -/
def allIds : SceneNode → List Nat
  | .mk _t sid _p _c _pch _cch _subs kids => sid :: kidsIds kids

/-- The node addresses owned through a children association list. -/
def kidsIds : List (Nat × SceneNode) → List Nat
  | [] => []
  | (_, k) :: rest => allIds k ++ kidsIds rest

end

/-- Keys of a children association list. -/
def kidKeys (kids : List (Nat × SceneNode)) : List Nat := kids.map Prod.fst

mutual

/-- Structural well-formedness of the intrusive lists, as they hold in any
state the C operations can reach: each state list links each child at most
once, child keys are unique, and every owned child is linked in at least
one of the two state lists (a node object always sits in its parent's
pending or current children list) and every linked key addresses an owned
child. -/
def wfNode : SceneNode → Prop
  | .mk _t _sid _p _c pch cch _subs kids =>
    cch.Nodup ∧ pch.Nodup ∧ (kidKeys kids).Nodup ∧
    (∀ i ∈ cch, i ∈ kidKeys kids) ∧ (∀ i ∈ pch, i ∈ kidKeys kids) ∧
    (∀ i ∈ kidKeys kids, i ∈ cch ∨ i ∈ pch) ∧
    wfKids kids

/-- Well-formedness of every child in a children association list. -/
def wfKids : List (Nat × SceneNode) → Prop
  | [] => True
  | (_, k) :: rest => wfNode k ∧ wfKids rest

end

/-- The destroy notifications contained in a destruction event trace. -/
def notifsOf (tr : List DestroyEvent) : List Nat :=
  tr.filterMap (fun e => match e with | .notify s => some s | _ => none)

/-! ### Scaling and rendering

Scale factors are modelled as rationals (the concrete scale factors of the
claims, `2.0` and `1.5`, are exactly representable as C floats, and the
contiguity argument is independent of the rounding function's values).
`round` is C's `round`: half away from zero. -/

/-- C `round` (half away from zero), on the rational model of the float
computation. -/
def c_round (q : Rat) : Int :=
  if 0 ≤ q then ⌊q + 1 / 2⌋ else ⌈q - 1 / 2⌉

/-- `scale_length` (`src/types/wlr_scene.c:201-203`):
`round((offset + length) * scale) - round(offset * scale)`. -/
def scale_length (length offset : Int) (scale : Rat) : Int :=
  c_round ((offset + length) * scale) - c_round (offset * scale)

/-- A `struct wlr_box`. -/
structure WlrBox where
  x : Int
  y : Int
  width : Int
  height : Int
deriving DecidableEq, Repr

/-- `scale_box` (`src/types/wlr_scene.c:205-210`): scale width and height by
`scale_length` against the box's own offsets, then round the offsets. -/
def scale_box (box : WlrBox) (scale : Rat) : WlrBox :=
  { x := c_round (box.x * scale)
    y := c_round (box.y * scale)
    width := scale_length box.width box.x scale
    height := scale_length box.height box.y scale }

/-- A `pixman_box32_t` rectangle `[x1, x2) × [y1, y2)`. -/
structure PBox where
  x1 : Int
  y1 : Int
  x2 : Int
  y2 : Int
deriving DecidableEq, Repr

/-- A `pixman_region32_t`, modelled from the spec's damage-region interface
as a set of disjoint rectangles, kept as a list. -/
def Region : Type := List PBox

/-- Whether a rectangle is non-degenerate. -/
def PBox.nonEmpty (b : PBox) : Bool := b.x1 < b.x2 && b.y1 < b.y2

/-- Intersection of two rectangles, `none` when degenerate or empty. -/
def boxIntersect (a b : PBox) : Option PBox :=
  let r : PBox := ⟨max a.x1 b.x1, max a.y1 b.y1, min a.x2 b.x2, min a.y2 b.y2⟩
  if r.nonEmpty then some r else none

/-- A `wlr_box` as the pixman rectangle it spans (as
`pixman_region32_init_rect` reads it). -/
def boxToP (b : WlrBox) : PBox := ⟨b.x, b.y, b.x + b.width, b.y + b.height⟩

/-- `pixman_region32_intersect` of a single-rectangle region with a region
of disjoint rectangles: the non-empty pairwise intersections, disjoint
again. -/
def regionIntersectBox (box : PBox) (region : Region) : Region :=
  region.filterMap (boxIntersect box)

/-- `pixman_region32_not_empty`: the region holds a non-degenerate
rectangle. -/
def regionNotEmpty (region : Region) : Bool :=
  region.any PBox.nonEmpty

/-- A call issued to the rendering backend: `wlr_renderer_scissor` (`none`
resets the scissor to unclipped) or `wlr_render_texture_with_matrix`
(texture and opacity; the projection matrix computation is external float
math and is not tracked). -/
inductive RenderCall where
  | scissor (box : Option PBox)
  | drawTexture (tex : Nat) (alpha : Rat)
deriving DecidableEq, Repr

/-- Model of the external `struct wlr_output` as read by this file.  The
output is modelled untransformed (`WL_OUTPUT_TRANSFORM_NORMAL`), so the
`wlr_box_transform` step of `scissor_output` is the identity on the
rectangle. -/
structure Output where
  enabled : Bool
  width : Int
  height : Int
  scale : Rat
deriving DecidableEq, Repr

/-- `render_texture` (`src/types/wlr_scene.c:233-252`): intersect the
destination box with the damage region; for each disjoint rectangle of the
intersection set the scissor to it (`scissor_output`) and issue one draw of
the texture at opacity `1.0`. -/
def render_texture (output_damage : Region) (texture : Nat) (box : WlrBox) :
    List RenderCall :=
  (regionIntersectBox (boxToP box) output_damage).flatMap
    (fun r => [RenderCall.scissor (some r), RenderCall.drawTexture texture 1])

/-- `render_surface_iterator` (`src/types/wlr_scene.c:259-285`): skip a
surface with no texture; otherwise build the destination box from the
yielded absolute position and the surface's current size, scale it by the
output scale, and hand it to `render_texture`. -/
def render_surface_iterator (output : Output) (damage : Region)
    (surface : Surface) (x y : Int) : List RenderCall :=
  match surface.texture with
  | none => []
  | some tex =>
    render_texture damage tex
      (scale_box ⟨x, y, surface.width, surface.height⟩ output.scale)

/-- `wlr_scene_render` (`src/types/wlr_scene.c:287-310`): substitute a
full-output rectangle when `damage` is null; when the output is enabled and
the region is not empty, run the traversal from offset `(-lx, -ly)` feeding
every yielded drawable to `render_surface_iterator`, then reset the scissor
to unclipped. -/
def wlr_scene_render (scene : SceneNode) (output : Output) (lx ly : Int)
    (damage : Option Region) : List RenderCall :=
  let dmg := damage.getD [⟨0, 0, output.width, output.height⟩]
  if output.enabled && regionNotEmpty dmg then
    (scene_node_for_each_surface scene (-lx) (-ly)).flatMap
      (fun e => render_surface_iterator output dmg e.1 e.2.1 e.2.2)
      ++ [RenderCall.scissor none]
  else []

/-- Count of draw calls in a backend call trace. -/
def countDraws (tr : List RenderCall) : Nat :=
  (tr.filter (fun c => match c with | .drawTexture _ _ => true | _ => false)).length

/-- Count of scissor calls (of either kind) in a backend call trace. -/
def countScissors (tr : List RenderCall) : Nat :=
  (tr.filter (fun c => match c with | .scissor _ => true | _ => false)).length

/-- The recursive pending state of a node: its `pending.{x,y}`, its
`pending.children` order, and the pending states of every owned child. -/
inductive PendView where
  | mk (xy : XY) (pch : List Nat) (kids : List (Nat × PendView))

mutual

/-- Project a node onto its recursive pending state. -/
def pendingView : SceneNode → PendView
  | .mk _t _sid p _c pch _cch _subs kids => .mk p pch (pendingViewKids kids)

/-- Project every child onto its recursive pending state. -/
def pendingViewKids : List (Nat × SceneNode) → List (Nat × PendView)
  | [] => []
  | (i, k) :: rest => (i, pendingView k) :: pendingViewKids rest

end

/-! ### Helper lemmas -/

theorem commit_ntype (n : SceneNode) :
    (wlr_scene_node_commit n).ntype = n.ntype := by
  cases n; rfl

theorem commit_sid (n : SceneNode) :
    (wlr_scene_node_commit n).sid = n.sid := by
  cases n; rfl

theorem commit_current (n : SceneNode) :
    (wlr_scene_node_commit n).current = n.pending := by
  cases n; rfl

theorem commit_pending (n : SceneNode) :
    (wlr_scene_node_commit n).pending = n.pending := by
  cases n; rfl

theorem commit_pendingCh (n : SceneNode) :
    (wlr_scene_node_commit n).pendingCh = n.pendingCh := by
  cases n; rfl

theorem commit_currentCh (n : SceneNode) :
    (wlr_scene_node_commit n).currentCh = commitOrder n.currentCh n.pendingCh := by
  cases n; rfl

theorem commit_kids (n : SceneNode) :
    (wlr_scene_node_commit n).kids =
      commitKids (commitOrder n.currentCh n.pendingCh) n.kids := by
  cases n; rfl

theorem commitKids_mem {cch : List Nat} {kids : List (Nat × SceneNode)}
    {i : Nat} {k : SceneNode} (h : (i, k) ∈ kids) (hc : cch.elem i = true) :
    (i, wlr_scene_node_commit k) ∈ commitKids cch kids := by
  induction kids with
  | nil => cases h
  | cons hd tl ih =>
    obtain ⟨j, k0⟩ := hd
    rcases List.mem_cons.mp h with h1 | h1
    · cases h1
      simp only [commitKids, hc, if_pos]
      exact List.mem_cons_self _ _
    · exact List.mem_cons_of_mem _ (ih h1)

theorem mem_kids_sizeOf {kids : List (Nat × SceneNode)} {i : Nat}
    {k : SceneNode} (h : (i, k) ∈ kids) : sizeOf k < sizeOf kids := by
  have h1 : sizeOf (i, k) < sizeOf kids := List.sizeOf_lt_of_mem h
  simp only [Prod.mk.sizeOf_spec] at h1
  omega

/-- Strong induction over the nested scene-node tree by size. -/
theorem sceneNode_strong_ind (P : SceneNode → Prop)
    (step : ∀ n, (∀ m, sizeOf m < sizeOf n → P m) → P n) : ∀ n, P n := by
  have key : ∀ b n, sizeOf n < b → P n := by
    intro b
    induction b with
    | zero => intro n h; omega
    | succ b ih => intro n h; exact step n (fun m hm => ih m (by omega))
  exact fun n => key (sizeOf n + 1) n (by omega)

theorem kids_sizeOf_lt (t : NodeType) (sid : Nat) (p c : XY)
    (pch cch : List Nat) (subs : List (Surface × Int × Int))
    (kids : List (Nat × SceneNode)) :
    sizeOf kids < sizeOf (SceneNode.mk t sid p c pch cch subs kids) := by
  simp only [SceneNode.mk.sizeOf_spec]
  omega

/-! ### Claim theorems -/

/-- C5: `scale_length len off s` equals `round((off + len) * s) -
round(off * s)`; `scale_length 10 0 2 = 20`; boxes that abut before scaling
stay contiguous under `scale_box` (the first box's scaled far edge is the
second box's scaled near edge), and the abutting boxes `[0,10)` and
`[10,20)` at scale `1.5` become `[0,15)` and `[15,30)`. -/
theorem c5_scale_length_contiguous :
    (∀ (len off : Int) (s : Rat),
      scale_length len off s = c_round ((off + len) * s) - c_round (off * s))
    ∧ scale_length 10 0 2 = 20
    ∧ (∀ (b1 b2 : WlrBox) (s : Rat), b1.x + b1.width = b2.x →
        (scale_box b1 s).x + (scale_box b1 s).width = (scale_box b2 s).x)
    ∧ scale_box ⟨0, 0, 10, 10⟩ (3 / 2) = ⟨0, 0, 15, 15⟩
    ∧ scale_box ⟨10, 0, 10, 10⟩ (3 / 2) = ⟨15, 0, 15, 15⟩ := by
  refine ⟨fun len off s => rfl, by norm_num [scale_length, c_round],
    fun b1 b2 s h => ?_,
    by simp only [scale_box, scale_length, c_round]; norm_num,
    by simp only [scale_box, scale_length, c_round]; norm_num⟩
  simp only [scale_box, scale_length]
  rw [← h]
  push_cast
  ring_nf

/-- Witness for C5 at a concrete abutting pair. -/
theorem c5_witness :
    (0 : Int) + 10 = 10 ∧
    (scale_box ⟨0, 0, 10, 10⟩ (3 / 2)).x + (scale_box ⟨0, 0, 10, 10⟩ (3 / 2)).width
      = (scale_box ⟨10, 0, 10, 10⟩ (3 / 2)).x :=
  ⟨by decide, c5_scale_length_contiguous.2.2.1 ⟨0, 0, 10, 10⟩ ⟨10, 0, 10, 10⟩ (3 / 2) (by decide)⟩

/-- C2: `move(n, x, y)` writes only `n.pending.{x,y}` (every other field of
the node, including its current position and both children orders, is
unchanged), so the current position read before a commit is the prior
value; after a commit reaching `n` — directly, or as a child the parent's
commit recursed into — the current position is `(x, y)`. -/
theorem c2_move_pending (n : SceneNode) (x y : Int) :
    (wlr_scene_node_move n x y).pending = ⟨x, y⟩
    ∧ (wlr_scene_node_move n x y).current = n.current
    ∧ (wlr_scene_node_move n x y).pendingCh = n.pendingCh
    ∧ (wlr_scene_node_move n x y).currentCh = n.currentCh
    ∧ (wlr_scene_node_move n x y).subs = n.subs
    ∧ (wlr_scene_node_move n x y).kids = n.kids
    ∧ (wlr_scene_node_move n x y).ntype = n.ntype
    ∧ (wlr_scene_node_move n x y).sid = n.sid
    ∧ (wlr_scene_node_commit (wlr_scene_node_move n x y)).current = ⟨x, y⟩
    ∧ (∀ (p : SceneNode) (i : Nat), (i, wlr_scene_node_move n x y) ∈ p.kids →
        ((wlr_scene_node_commit p).currentCh).elem i = true →
        (i, wlr_scene_node_commit (wlr_scene_node_move n x y))
          ∈ (wlr_scene_node_commit p).kids
          ∧ (wlr_scene_node_commit (wlr_scene_node_move n x y)).current = ⟨x, y⟩) := by
  obtain ⟨t, sid, p0, c0, pch, cch, subs, kids⟩ := n
  refine ⟨rfl, rfl, rfl, rfl, rfl, rfl, rfl, rfl, rfl, ?_⟩
  intro p i hmem helem
  rw [commit_currentCh] at helem
  rw [commit_kids]
  exact ⟨commitKids_mem hmem helem, rfl⟩

/-- Witness for C2: a parent committing a moved child makes the child's
current position the moved-to pending position. -/
theorem c2_witness :
    ((0 : Nat), wlr_scene_node_move (.mk .surface 2 ⟨0, 0⟩ ⟨0, 0⟩ [] [] [] []) 7 9)
      ∈ (SceneNode.mk .root 1 ⟨0, 0⟩ ⟨0, 0⟩ [0] [0] []
          [(0, wlr_scene_node_move (.mk .surface 2 ⟨0, 0⟩ ⟨0, 0⟩ [] [] [] []) 7 9)]).kids
    ∧ ((wlr_scene_node_commit (SceneNode.mk .root 1 ⟨0, 0⟩ ⟨0, 0⟩ [0] [0] []
          [(0, wlr_scene_node_move (.mk .surface 2 ⟨0, 0⟩ ⟨0, 0⟩ [] [] [] []) 7 9)])).currentCh).elem 0 = true
    ∧ (0, wlr_scene_node_commit (wlr_scene_node_move (.mk .surface 2 ⟨0, 0⟩ ⟨0, 0⟩ [] [] [] []) 7 9))
        ∈ (wlr_scene_node_commit (SceneNode.mk .root 1 ⟨0, 0⟩ ⟨0, 0⟩ [0] [0] []
            [(0, wlr_scene_node_move (.mk .surface 2 ⟨0, 0⟩ ⟨0, 0⟩ [] [] [] []) 7 9)])).kids
    ∧ (wlr_scene_node_commit (wlr_scene_node_move (.mk .surface 2 ⟨0, 0⟩ ⟨0, 0⟩ [] [] [] []) 7 9)).current = ⟨7, 9⟩ := by
  refine ⟨List.mem_cons_self _ _, rfl, ?_⟩
  exact (c2_move_pending (.mk .surface 2 ⟨0, 0⟩ ⟨0, 0⟩ [] [] [] []) 7 9).2.2.2.2.2.2.2.2.2
    _ 0 (List.mem_cons_self _ _) rfl

theorem commitOrder_filter_mem (cur pend : List Nat) :
    (commitOrder cur pend).filter (fun c => pend.elem c) = pend := by
  simp only [commitOrder, List.filter_append, List.filter_filter]
  have h1 : (cur.filter fun c => pend.elem c && !pend.elem c) = [] := by
    apply List.filter_eq_nil_iff.mpr
    intro a _
    simp
  have h2 : (pend.filter fun c => pend.elem c) = pend := by
    apply List.filter_eq_self.mpr
    intro a ha
    exact List.elem_iff.mpr ha
  rw [h1, h2, List.nil_append]

theorem commitOrder_filter_not_mem (cur pend : List Nat) :
    (commitOrder cur pend).filter (fun c => !(pend.elem c))
      = cur.filter (fun c => !(pend.elem c)) := by
  simp only [commitOrder, List.filter_append, List.filter_filter]
  have h2 : (pend.filter fun c => !pend.elem c) = [] := by
    apply List.filter_eq_nil_iff.mpr
    intro a ha
    simp [List.elem_eq_mem, ha]
  rw [h2, List.append_nil]
  congr 1
  funext a
  exact Bool.and_self _

theorem mem_commitOrder_of_mem_cur {cur pend : List Nat} {c : Nat}
    (h : c ∈ cur) : c ∈ commitOrder cur pend := by
  by_cases hc : c ∈ pend
  · exact List.mem_append_right _ hc
  · refine List.mem_append_left _ (List.mem_filter.mpr ⟨h, ?_⟩)
    simp [hc, List.elem_iff]

/-- C1: `commit(n)` copies `pending.{x,y}` into `current.{x,y}`; the new
`current.children` lists the children of `pending.children` in exactly
pending order; children present only in `current.children` are not removed
(they keep their relative order, and every previously current child is
still current); and `commit` is invoked recursively on every child now in
`current.children`. -/
theorem c1_commit (n : SceneNode) :
    (wlr_scene_node_commit n).current = n.pending
    ∧ (wlr_scene_node_commit n).currentCh.filter (fun c => n.pendingCh.elem c)
        = n.pendingCh
    ∧ (wlr_scene_node_commit n).currentCh.filter (fun c => !(n.pendingCh.elem c))
        = n.currentCh.filter (fun c => !(n.pendingCh.elem c))
    ∧ (∀ c ∈ n.currentCh, c ∈ (wlr_scene_node_commit n).currentCh)
    ∧ (∀ c ∈ n.pendingCh, c ∈ (wlr_scene_node_commit n).currentCh)
    ∧ (∀ (i : Nat) (k : SceneNode), (i, k) ∈ n.kids →
        ((wlr_scene_node_commit n).currentCh).elem i = true →
        (i, wlr_scene_node_commit k) ∈ (wlr_scene_node_commit n).kids) := by
  refine ⟨commit_current n, ?_, ?_, ?_, ?_, ?_⟩
  · rw [commit_currentCh]; exact commitOrder_filter_mem _ _
  · rw [commit_currentCh]; exact commitOrder_filter_not_mem _ _
  · intro c hc
    rw [commit_currentCh]
    exact mem_commitOrder_of_mem_cur hc
  · intro c hc
    rw [commit_currentCh]
    exact List.mem_append_right _ hc
  · intro i k hmem helem
    rw [commit_currentCh] at helem
    rw [commit_kids]
    exact commitKids_mem hmem helem

/-- A concrete child node used by the witnesses. -/
def exKid1 : SceneNode := .mk .surface 10 ⟨0, 0⟩ ⟨0, 0⟩ [] [] [] []

/-- A concrete child node used by the witnesses. -/
def exKid2 : SceneNode := .mk .surface 11 ⟨0, 0⟩ ⟨0, 0⟩ [] [] [] []

/-- A concrete child node used by the witnesses. -/
def exKid3 : SceneNode := .mk .surface 12 ⟨0, 0⟩ ⟨0, 0⟩ [] [] [] []

/-- A concrete parent with a current-only child (3), a shared child (1) and
a pending-only child (2). -/
def exParent : SceneNode :=
  .mk .root 0 ⟨2, 3⟩ ⟨0, 0⟩ [2, 1] [3, 1] [] [(1, exKid1), (2, exKid2), (3, exKid3)]

/-- Witness for C1 on a node with a current-only child, a shared child and
a pending-only child. -/
theorem c1_witness :
    (∀ c ∈ exParent.currentCh, c ∈ (wlr_scene_node_commit exParent).currentCh)
    ∧ ((1 : Nat), wlr_scene_node_commit exKid1)
        ∈ (wlr_scene_node_commit exParent).kids := by
  constructor
  · exact (c1_commit exParent).2.2.2.1
  · exact (c1_commit exParent).2.2.2.2.2 1 exKid1 (List.Mem.head _) rfl

theorem commitOrder_idem (cur pend : List Nat) :
    commitOrder (commitOrder cur pend) pend = commitOrder cur pend := by
  have h : commitOrder (commitOrder cur pend) pend
      = (commitOrder cur pend).filter (fun c => !(pend.elem c)) ++ pend := rfl
  rw [h, commitOrder_filter_not_mem]
  rfl

theorem commitKids_twice (cch : List Nat) (kids : List (Nat × SceneNode))
    (IH : ∀ q ∈ kids,
      wlr_scene_node_commit (wlr_scene_node_commit q.2) = wlr_scene_node_commit q.2) :
    commitKids cch (commitKids cch kids) = commitKids cch kids := by
  induction kids with
  | nil => rfl
  | cons hd tl ih =>
    obtain ⟨i, k⟩ := hd
    simp only [commitKids]
    refine congrArg₂ _ ?_ (ih (fun q hq => IH q (List.mem_cons_of_mem _ hq)))
    by_cases hc : cch.elem i = true
    · simp only [hc, if_true]
      exact congrArg _ (IH (i, k) (List.Mem.head _))
    · simp only [Bool.not_eq_true] at hc
      simp only [hc]
      rfl

theorem pendingViewKids_commit (cch : List Nat) (kids : List (Nat × SceneNode))
    (IH : ∀ q ∈ kids, pendingView (wlr_scene_node_commit q.2) = pendingView q.2) :
    pendingViewKids (commitKids cch kids) = pendingViewKids kids := by
  induction kids with
  | nil => rfl
  | cons hd tl ih =>
    obtain ⟨i, k⟩ := hd
    simp only [commitKids, pendingViewKids]
    refine congrArg₂ _ ?_ (ih (fun q hq => IH q (List.mem_cons_of_mem _ hq)))
    by_cases hc : cch.elem i = true
    · simp only [hc, if_true]
      exact congrArg _ (IH (i, k) (List.Mem.head _))
    · simp only [Bool.not_eq_true] at hc
      simp only [hc]
      rfl

/-- C10: `commit` reads pending state and writes only current state — the
recursive pending view of the whole subtree is unchanged — and `commit` is
idempotent: committing twice with no intervening mutation produces exactly
the state (current positions, current child orders, recursively) of
committing once. -/
theorem c10_commit_idempotent (n : SceneNode) :
    pendingView (wlr_scene_node_commit n) = pendingView n
    ∧ wlr_scene_node_commit (wlr_scene_node_commit n) = wlr_scene_node_commit n := by
  induction n using sceneNode_strong_ind with
  | _ n IH =>
    obtain ⟨t, sid, p, c, pch, cch, subs, kids⟩ := n
    have hk : ∀ q ∈ kids, sizeOf q.2 < sizeOf (SceneNode.mk t sid p c pch cch subs kids) := by
      intro q hq
      have h1 : sizeOf q.2 < sizeOf kids := by
        obtain ⟨i, k⟩ := q
        exact mem_kids_sizeOf hq
      have h2 := kids_sizeOf_lt t sid p c pch cch subs kids
      omega
    constructor
    · show PendView.mk p pch (pendingViewKids (commitKids _ kids)) = _
      exact congrArg _ (pendingViewKids_commit _ kids (fun q hq => (IH q.2 (hk q hq)).1))
    · show SceneNode.mk t sid p p pch (commitOrder (commitOrder cch pch) pch) subs
          (commitKids (commitOrder (commitOrder cch pch) pch) (commitKids (commitOrder cch pch) kids))
        = SceneNode.mk t sid p p pch (commitOrder cch pch) subs (commitKids (commitOrder cch pch) kids)
      rw [commitOrder_idem]
      exact congrArg _ (commitKids_twice _ kids (fun q hq => (IH q.2 (hk q hq)).2))

/-- `x` is immediately followed by `y` somewhere in `l`. -/
def adjacentPair (l : List Nat) (x y : Nat) : Prop :=
  ∃ l₁ l₂, l = l₁ ++ x :: y :: l₂

theorem insertAfter_adj {m : List Nat} {b a : Nat} (hb : b ∈ m) :
    adjacentPair (insertAfter m b a) b a := by
  induction m with
  | nil => cases hb
  | cons c rest ih =>
    by_cases hc : c = b
    · subst hc
      exact ⟨[], rest, by simp [insertAfter]⟩
    · have hb2 : b ∈ rest := by
        rcases List.mem_cons.mp hb with h | h
        · exact absurd h.symm hc
        · exact h
      obtain ⟨l₁, l₂, hl⟩ := ih hb2
      exact ⟨c :: l₁, l₂, by simp [insertAfter, hc, hl]⟩

theorem insertBefore_adj {m : List Nat} {b a : Nat} (hb : b ∈ m) :
    adjacentPair (insertBefore m b a) a b := by
  induction m with
  | nil => cases hb
  | cons c rest ih =>
    by_cases hc : c = b
    · subst hc
      exact ⟨[], rest, by simp [insertBefore]⟩
    · have hb2 : b ∈ rest := by
        rcases List.mem_cons.mp hb with h | h
        · exact absurd h.symm hc
        · exact h
      obtain ⟨l₁, l₂, hl⟩ := ih hb2
      exact ⟨c :: l₁, l₂, by simp [insertBefore, hc, hl]⟩

theorem insertAfter_erase {m : List Nat} {b a : Nat} (ha : a ∉ m) :
    (insertAfter m b a).erase a = m := by
  induction m with
  | nil => rfl
  | cons c rest ih =>
    have hca : c ≠ a := fun h => ha (h ▸ List.Mem.head _)
    have harest : a ∉ rest := fun h => ha (List.mem_cons_of_mem _ h)
    by_cases hc : c = b
    · subst hc
      simp [insertAfter, List.erase_cons, hca]
    · simp [insertAfter, hc, List.erase_cons, hca, ih harest]

theorem insertBefore_erase {m : List Nat} {b a : Nat} (ha : a ∉ m) :
    (insertBefore m b a).erase a = m := by
  induction m with
  | nil => rfl
  | cons c rest ih =>
    have hca : c ≠ a := fun h => ha (h ▸ List.Mem.head _)
    have harest : a ∉ rest := fun h => ha (List.mem_cons_of_mem _ h)
    by_cases hc : c = b
    · subst hc
      simp [insertBefore, List.erase_cons, hca]
    · simp [insertBefore, hc, List.erase_cons, hca, ih harest]

theorem adjacentPair_commitOrder {cch l : List Nat} {x y : Nat}
    (h : adjacentPair l x y) : adjacentPair (commitOrder cch l) x y := by
  obtain ⟨l₁, l₂, hl⟩ := h
  exact ⟨cch.filter (fun c => !(l.elem c)) ++ l₁, l₂, by
    simp [commitOrder, hl, List.append_assoc]⟩

/-- C3: for distinct siblings `a`, `b` of a common parent,
`place_above(a, b)` relinks `a` immediately after `b` in the parent's
`pending.children`, preserving the relative order of all other children and
leaving `current.children` untouched, and after `commit` on the parent `a`
immediately follows `b` in current order; `place_below(a, b)` relinks `a`
immediately before `b` and after `commit` `a` immediately precedes `b`. -/
theorem c3_place_above_below (p : SceneNode) (a b : Nat) (hab : a ≠ b)
    (hnd : p.pendingCh.Nodup) (hb : b ∈ p.pendingCh) :
    adjacentPair (wlr_scene_node_place_above p a b).pendingCh b a
    ∧ ((wlr_scene_node_place_above p a b).pendingCh).erase a = p.pendingCh.erase a
    ∧ (wlr_scene_node_place_above p a b).currentCh = p.currentCh
    ∧ adjacentPair
        (wlr_scene_node_commit (wlr_scene_node_place_above p a b)).currentCh b a
    ∧ adjacentPair (wlr_scene_node_place_below p a b).pendingCh a b
    ∧ ((wlr_scene_node_place_below p a b).pendingCh).erase a = p.pendingCh.erase a
    ∧ (wlr_scene_node_place_below p a b).currentCh = p.currentCh
    ∧ adjacentPair
        (wlr_scene_node_commit (wlr_scene_node_place_below p a b)).currentCh a b := by
  have hpa : (wlr_scene_node_place_above p a b).pendingCh
      = insertAfter (p.pendingCh.erase a) b a := by cases p; rfl
  have hpb : (wlr_scene_node_place_below p a b).pendingCh
      = insertBefore (p.pendingCh.erase a) b a := by cases p; rfl
  have hca : (wlr_scene_node_place_above p a b).currentCh = p.currentCh := by
    cases p; rfl
  have hcb : (wlr_scene_node_place_below p a b).currentCh = p.currentCh := by
    cases p; rfl
  have hbe : b ∈ p.pendingCh.erase a := (List.mem_erase_of_ne (Ne.symm hab)).mpr hb
  have hae : a ∉ p.pendingCh.erase a := fun h => by
    have := (hnd.mem_erase_iff).mp h
    exact this.1 rfl
  refine ⟨hpa ▸ insertAfter_adj hbe, by rw [hpa]; exact insertAfter_erase hae, hca, ?_,
    hpb ▸ insertBefore_adj hbe, by rw [hpb]; exact insertBefore_erase hae, hcb, ?_⟩
  · rw [commit_currentCh, hpa]
    exact adjacentPair_commitOrder (insertAfter_adj hbe)
  · rw [commit_currentCh, hpb]
    exact adjacentPair_commitOrder (insertBefore_adj hbe)

/-- Witness for C3: in the parent with pending children `[2, 1]`,
`place_above(1, 2)` then `commit` puts `1` immediately after `2` in current
order. -/
theorem c3_witness :
    (1 : Nat) ≠ 2 ∧ (exParent.pendingCh).Nodup ∧ 2 ∈ exParent.pendingCh
    ∧ adjacentPair
        (wlr_scene_node_commit (wlr_scene_node_place_above exParent 1 2)).currentCh 2 1 :=
  ⟨by decide, by decide, by decide,
    (c3_place_above_below exParent 1 2 (by decide) (by decide) (by decide)).2.2.2.1⟩

/-- The member list left by a normally-completing place call. -/
def okList (r : CResult Links) (fuel : Nat) : Option (List Nat) :=
  match r with
  | .ok ls => some (ptrToList ls fuel)
  | _ => none

theorem wl_list_remove_ne_assertFail (ls : Links) (elm : Loc) :
    wl_list_remove ls elm ≠ .assertFail := by
  unfold wl_list_remove
  split
  · intro h; cases h
  · dsimp only
    split
    · intro h; cases h
    · intro h; cases h

theorem wl_list_insert_ne_assertFail (ls : Links) (list : Option Loc) (elm : Loc) :
    wl_list_insert ls list elm ≠ .assertFail := by
  unfold wl_list_insert
  split
  · intro h; cases h
  · dsimp only
    split
    · intro h; cases h
    · intro h; cases h

/-- C4 counterexample: with the well-formed two-child pending list
`exLinks = [1, 2]`, the self-call `place_above(1, 1)` passes the assertion
and completes normally, but child 1 is no longer a member of the parent's
pending children list afterwards — contradicting the claim that such a call
leaves the node still a member. -/
theorem c4_counterexample :
    (place_above_ptr (some 0) (some 0) exLinks 1 1).isOk = true
    ∧ okMember (place_above_ptr (some 0) (some 0) exLinks 1 1) 1 4 = false := by
  exact ⟨rfl, rfl⟩

/-- C4 amended: `place_above` and `place_below` trap on their assertion
exactly when `node.parent ≠ sibling.parent`; a call with `node == sibling`
passes the assertion (the parent check holds trivially) and is therefore
not excluded, but it does not keep the node in the parent's pending list:
`place_above(n, n)` completes normally and detaches `n`, leaving the
remaining list well-formed without it (on `[1, 2]` the list becomes `[2]`),
and `place_below(n, n)` dereferences a null `prev` pointer. -/
theorem c4_place_self_detaches :
    (∀ (np sp : Option Nat) (ls : Links) (n s : Nat), np ≠ sp →
      place_above_ptr np sp ls n s = .assertFail
      ∧ place_below_ptr np sp ls n s = .assertFail)
    ∧ (∀ (np : Option Nat) (ls : Links) (n s : Nat),
      place_above_ptr np np ls n s ≠ .assertFail
      ∧ place_below_ptr np np ls n s ≠ .assertFail)
    ∧ okList (place_above_ptr (some 0) (some 0) exLinks 1 1) 4 = some [2]
    ∧ (place_below_ptr (some 0) (some 0) exLinks 1 1).isCrash = true := by
  refine ⟨?_, ?_, rfl, rfl⟩
  · intro np sp ls n s h
    constructor
    · simp only [place_above_ptr, if_neg h]
    · simp only [place_below_ptr, if_neg h]
  · intro np ls n s
    constructor
    · have hif : place_above_ptr np np ls n s
          = (match wl_list_remove ls (.elem n) with
             | .ok ls1 => wl_list_insert ls1 (some (.elem s)) (.elem n)
             | r => r) := by
        simp [place_above_ptr]
      rw [hif]
      cases h : wl_list_remove ls (.elem n) with
      | ok ls1 => exact wl_list_insert_ne_assertFail ls1 _ _
      | assertFail => exact absurd h (wl_list_remove_ne_assertFail ls _)
      | crash => intro hc; cases hc
    · have hif : place_below_ptr np np ls n s
          = (match wl_list_remove ls (.elem n) with
             | .ok ls1 => wl_list_insert ls1 ((ls1 (.elem s)).prev) (.elem n)
             | r => r) := by
        simp [place_below_ptr]
      rw [hif]
      cases h : wl_list_remove ls (.elem n) with
      | ok ls1 => exact wl_list_insert_ne_assertFail ls1 _ _
      | assertFail => exact absurd h (wl_list_remove_ne_assertFail ls _)
      | crash => intro hc; cases hc

/-- Witness for the amended C4: with distinct parents both calls trap on
the assertion. -/
theorem c4_witness :
    (some 0 : Option Nat) ≠ some 1
    ∧ place_above_ptr (some 0) (some 1) exLinks 1 2 = .assertFail
    ∧ place_below_ptr (some 0) (some 1) exLinks 1 2 = .assertFail :=
  ⟨by decide, (c4_place_self_detaches.1 (some 0) (some 1) exLinks 1 2 (by decide)).1,
    (c4_place_self_detaches.1 (some 0) (some 1) exLinks 1 2 (by decide)).2⟩

theorem render_texture_no_unclip (d : Region) (tex : Nat) (box : WlrBox) :
    RenderCall.scissor none ∉ render_texture d tex box := by
  intro h
  rcases List.mem_flatMap.mp h with ⟨r, _, hmem⟩
  rcases List.mem_cons.mp hmem with h1 | h1
  · cases h1
  · rcases List.mem_cons.mp h1 with h2 | h2
    · cases h2
    · cases h2

theorem render_surface_iterator_no_unclip (output : Output) (d : Region)
    (s : Surface) (x y : Int) :
    RenderCall.scissor none ∉ render_surface_iterator output d s x y := by
  unfold render_surface_iterator
  split
  · intro h; cases h
  · exact render_texture_no_unclip _ _ _

/-- C7: `render` with absent damage behaves exactly as with a single
full-output rectangle; it issues no backend call at all when the output is
disabled or the damage region is empty; otherwise the backend trace ends
with — and contains exactly one — scissor reset to unclipped, issued after
the whole traversal-and-draw pass. -/
theorem c7_render_reset (scene : SceneNode) (output : Output) (lx ly : Int) :
    wlr_scene_render scene output lx ly none
      = wlr_scene_render scene output lx ly
          (some [⟨0, 0, output.width, output.height⟩])
    ∧ (output.enabled = false →
        ∀ d : Option Region, wlr_scene_render scene output lx ly d = [])
    ∧ (∀ dl : Region, regionNotEmpty dl = false →
        wlr_scene_render scene output lx ly (some dl) = [])
    ∧ (regionNotEmpty [⟨0, 0, output.width, output.height⟩] = false →
        wlr_scene_render scene output lx ly none = [])
    ∧ (∀ dl : Region, output.enabled = true → regionNotEmpty dl = true →
        (wlr_scene_render scene output lx ly (some dl)).getLast?
            = some (RenderCall.scissor none)
        ∧ (wlr_scene_render scene output lx ly (some dl)).count
            (RenderCall.scissor none) = 1) := by
  refine ⟨rfl, ?_, ?_, ?_, ?_⟩
  · intro hen d
    unfold wlr_scene_render
    simp [hen]
  · intro dl hne
    unfold wlr_scene_render
    simp [hne]
  · intro hne
    unfold wlr_scene_render
    simp [hne]
  · intro dl hen hne
    have hbody : wlr_scene_render scene output lx ly (some dl)
        = (scene_node_for_each_surface scene (-lx) (-ly)).flatMap
            (fun e => render_surface_iterator output dl e.1 e.2.1 e.2.2)
          ++ [RenderCall.scissor none] := by
      unfold wlr_scene_render
      simp [hen, hne]
    rw [hbody]
    constructor
    · exact List.getLast?_concat _
    · rw [List.count_append]
      have h0 : ((scene_node_for_each_surface scene (-lx) (-ly)).flatMap
          (fun e => render_surface_iterator output dl e.1 e.2.1 e.2.2)).count
            (RenderCall.scissor none) = 0 := by
        apply List.count_eq_zero.mpr
        intro h
        rcases List.mem_flatMap.mp h with ⟨e, _, hmem⟩
        exact render_surface_iterator_no_unclip output dl e.1 e.2.1 e.2.2 hmem
      rw [h0]
      rfl

/-- Witness for C7: on an enabled 100×100 output with full-output damage,
the trace of the one-surface example scene ends with the unclip reset and
contains it exactly once; and `none` damage substitutes the full-output
rectangle. -/
theorem c7_witness :
    (Output.mk true 100 100 1).enabled = true
    ∧ regionNotEmpty [⟨0, 0, (100 : Int), 100⟩] = true
    ∧ (wlr_scene_render exParent (Output.mk true 100 100 1) 0 0
        (some [⟨0, 0, 100, 100⟩])).getLast? = some (RenderCall.scissor none)
    ∧ (wlr_scene_render exParent (Output.mk true 100 100 1) 0 0
        (some [⟨0, 0, 100, 100⟩])).count (RenderCall.scissor none) = 1 := by
  refine ⟨rfl, rfl, ?_⟩
  have h := (c7_render_reset exParent (Output.mk true 100 100 1) 0 0).2.2.2.2
    [⟨0, 0, 100, 100⟩] rfl rfl
  exact h

/-- The scaled destination box `render_surface_iterator` builds for a
drawable yielded at absolute position `(x, y)`. -/
def scaledBox (output : Output) (s : Surface) (x y : Int) : WlrBox :=
  scale_box ⟨x, y, s.width, s.height⟩ output.scale

/-- Whether a yielded drawable produces a draw call against a damage
region: it has a texture and its scaled destination box meets the
region. -/
def drawnOnce (output : Output) (dmg : Region) (e : Surface × Int × Int) : Bool :=
  match e.1.texture with
  | none => false
  | some _ => !(regionIntersectBox (boxToP (scaledBox output e.1 e.2.1 e.2.2)) dmg).isEmpty

theorem countDraws_append (a b : List RenderCall) :
    countDraws (a ++ b) = countDraws a + countDraws b := by
  simp [countDraws, List.filter_append]

theorem countScissors_append (a b : List RenderCall) :
    countScissors (a ++ b) = countScissors a + countScissors b := by
  simp [countScissors, List.filter_append]

theorem render_texture_counts (R : Region) (tex : Nat) (box : WlrBox) :
    countDraws (render_texture R tex box)
        = (regionIntersectBox (boxToP box) R).length
    ∧ countScissors (render_texture R tex box)
        = (regionIntersectBox (boxToP box) R).length := by
  unfold render_texture
  generalize regionIntersectBox (boxToP box) R = I
  induction I with
  | nil => exact ⟨rfl, rfl⟩
  | cons r rest ih =>
    rw [List.flatMap_cons]
    rw [countDraws_append, countScissors_append]
    constructor
    · rw [ih.1]
      show 1 + rest.length = rest.length + 1
      omega
    · rw [ih.2]
      show 1 + rest.length = rest.length + 1
      omega

theorem render_texture_alpha (R : Region) (tex t : Nat) (box : WlrBox)
    (a : Rat) (h : RenderCall.drawTexture t a ∈ render_texture R tex box) :
    a = 1 := by
  rcases List.mem_flatMap.mp h with ⟨r, _, hmem⟩
  rcases List.mem_cons.mp hmem with h1 | h1
  · cases h1
  · rcases List.mem_cons.mp h1 with h2 | h2
    · cases h2; rfl
    · cases h2

theorem render_surface_iterator_counts (output : Output) (dmg : Region)
    (s : Surface) (x y : Int) (tex : Nat) (htex : s.texture = some tex) :
    countDraws (render_surface_iterator output dmg s x y)
        = (regionIntersectBox (boxToP (scaledBox output s x y)) dmg).length
    ∧ countScissors (render_surface_iterator output dmg s x y)
        = (regionIntersectBox (boxToP (scaledBox output s x y)) dmg).length := by
  unfold render_surface_iterator
  rw [htex]
  exact render_texture_counts dmg tex (scaledBox output s x y)

theorem render_surface_iterator_drawnOnce (output : Output) (full : PBox)
    (e : Surface × Int × Int) :
    countDraws (render_surface_iterator output [full] e.1 e.2.1 e.2.2)
      = if drawnOnce output [full] e then 1 else 0 := by
  obtain ⟨s, x, y⟩ := e
  cases htex : s.texture with
  | none =>
    simp only [drawnOnce, htex]
    unfold render_surface_iterator
    rw [htex]
    rfl
  | some tex =>
    rw [(render_surface_iterator_counts output [full] s x y tex htex).1]
    simp only [drawnOnce, htex]
    show (regionIntersectBox (boxToP (scaledBox output s x y)) [full]).length = _
    unfold regionIntersectBox
    cases hbi : boxIntersect (boxToP (scaledBox output s x y)) full <;>
      simp [List.filterMap, hbi]

theorem countDraws_flatMap_filter (output : Output) (full : PBox)
    (l : List (Surface × Int × Int)) :
    countDraws (l.flatMap
        (fun e => render_surface_iterator output [full] e.1 e.2.1 e.2.2))
      = (l.filter (drawnOnce output [full])).length := by
  induction l with
  | nil => rfl
  | cons e rest ih =>
    rw [List.flatMap_cons, countDraws_append, ih,
      render_surface_iterator_drawnOnce output full e]
    by_cases hd : drawnOnce output [full] e
    · simp only [hd, if_true, List.filter_cons, List.length_cons]
      omega
    · simp only [hd, if_false, List.filter_cons, Bool.false_eq_true]
      simp [hd]

/-- C6: a drawable with no texture issues no backend call; a textured
drawable whose scaled destination box misses the damage region issues no
backend call; otherwise it issues exactly one scissor call and one draw
call per disjoint rectangle of the intersection, all draws at opacity
`1.0`; and with damage absent the substituted damage is the single
full-output rectangle, so the number of draw calls of the whole pass equals
the number of yielded drawables that are textured and meet the output
rectangle — each drawn exactly once. -/
theorem c6_render_texture_damage (output : Output) (dmg : Region)
    (s : Surface) (x y : Int) (scene : SceneNode) (lx ly : Int) :
    (s.texture = none → render_surface_iterator output dmg s x y = [])
    ∧ (∀ tex : Nat, s.texture = some tex →
        (regionIntersectBox (boxToP (scaledBox output s x y)) dmg = [] →
          render_surface_iterator output dmg s x y = [])
        ∧ countScissors (render_surface_iterator output dmg s x y)
            = (regionIntersectBox (boxToP (scaledBox output s x y)) dmg).length
        ∧ countDraws (render_surface_iterator output dmg s x y)
            = (regionIntersectBox (boxToP (scaledBox output s x y)) dmg).length
        ∧ (∀ (t : Nat) (a : Rat),
            RenderCall.drawTexture t a ∈ render_surface_iterator output dmg s x y →
            a = 1))
    ∧ (output.enabled = true →
        regionNotEmpty [⟨0, 0, output.width, output.height⟩] = true →
        countDraws (wlr_scene_render scene output lx ly none)
          = ((scene_node_for_each_surface scene (-lx) (-ly)).filter
              (drawnOnce output [⟨0, 0, output.width, output.height⟩])).length) := by
  refine ⟨?_, ?_, ?_⟩
  · intro htex
    unfold render_surface_iterator
    rw [htex]
  · intro tex htex
    have hrsi : render_surface_iterator output dmg s x y
        = render_texture dmg tex (scaledBox output s x y) := by
      unfold render_surface_iterator
      rw [htex]
      rfl
    refine ⟨?_, (render_surface_iterator_counts output dmg s x y tex htex).2,
      (render_surface_iterator_counts output dmg s x y tex htex).1, ?_⟩
    · intro hempty
      rw [hrsi]
      unfold render_texture
      rw [hempty]
      rfl
    · intro t a hmem
      rw [hrsi] at hmem
      exact render_texture_alpha dmg tex t _ a hmem
  · intro hen hne
    have hbody : wlr_scene_render scene output lx ly none
        = (scene_node_for_each_surface scene (-lx) (-ly)).flatMap
            (fun e => render_surface_iterator output
              [⟨0, 0, output.width, output.height⟩] e.1 e.2.1 e.2.2)
          ++ [RenderCall.scissor none] := by
      unfold wlr_scene_render
      simp [hen, hne]
    rw [hbody, countDraws_append, countDraws_flatMap_filter]
    rfl

/-- Witness for C6: on the committed example scene over an enabled 100×100
output, exactly one drawable is textured and meets the output, so exactly
one draw call is issued. -/
theorem c6_witness :
    (Surface.mk none 4 4).texture = none
    ∧ render_surface_iterator (Output.mk true 100 100 1) [⟨0, 0, 100, 100⟩]
        (Surface.mk none 4 4) 0 0 = []
    ∧ (Output.mk true 100 100 1).enabled = true
    ∧ regionNotEmpty [⟨0, 0, (100 : Int), 100⟩] = true
    ∧ countDraws (wlr_scene_render (wlr_scene_node_commit exParent)
        (Output.mk true 100 100 1) 0 0 none) = 0 := by
  refine ⟨rfl, ?_, rfl, rfl, ?_⟩
  · exact (c6_render_texture_damage (Output.mk true 100 100 1) [⟨0, 0, 100, 100⟩]
      (Surface.mk none 4 4) 0 0 exParent 0 0).1 rfl
  · have h := (c6_render_texture_damage (Output.mk true 100 100 1) []
      (Surface.mk none 4 4) 0 0 (wlr_scene_node_commit exParent) 0 0).2.2 rfl rfl
    rw [h]
    have htrav : scene_node_for_each_surface (wlr_scene_node_commit exParent)
        (-(0 : Int)) (-(0 : Int)) = [] := by
      show scene_node_for_each_surface
        (.mk .root 0 ⟨2, 3⟩ ⟨2, 3⟩ [2, 1] [3, 2, 1] []
          [(1, wlr_scene_node_commit exKid1), (2, wlr_scene_node_commit exKid2),
            (3, exKid3)]) (-(0 : Int)) (-(0 : Int)) = []
      simp [scene_node_for_each_surface, forEachOrder, lookupKid,
        wlr_scene_node_commit, exKid1, exKid2, exKid3, commitKids, commitOrder]
    rw [htrav]
    rfl

theorem flatMap_map_eq {α β γ : Type} (l : List α) (f : α → β) (g : β → List γ) :
    (l.map f).flatMap g = l.flatMap (fun x => g (f x)) := by
  induction l with
  | nil => rfl
  | cons a rest ih => simp [List.flatMap_cons, ih]

theorem entriesAtPath_nil (n : SceneNode) (lx ly : Int) :
    entriesAtPath n lx ly []
      = if n.ntype = .surface then
          n.subs.map (fun e => (e.1, lx + n.current.x + e.2.1, ly + n.current.y + e.2.2))
        else [] := by
  rfl

theorem entriesAtPath_cons {n k : SceneNode} {i : Nat}
    (hk : lookupKid n.kids i = some k) (lx ly : Int) (p : List Nat) :
    entriesAtPath n lx ly (i :: p)
      = entriesAtPath k (lx + n.current.x) (ly + n.current.y) p := by
  have hna : nodeAt n (i :: p) = nodeAt k p := by
    show (match lookupKid n.kids i with
          | some k => nodeAt k p
          | none => none) = nodeAt k p
    rw [hk]
  have hps : pathOffsetSum n (i :: p)
      = (pathOffsetSum k p).map (fun o => (n.current.x + o.1, n.current.y + o.2)) := by
    show (match lookupKid n.kids i with
          | some k2 => (pathOffsetSum k2 p).map
              (fun o => (n.current.x + o.1, n.current.y + o.2))
          | none => none)
        = (pathOffsetSum k p).map (fun o => (n.current.x + o.1, n.current.y + o.2))
    rw [hk]
  unfold entriesAtPath
  rw [hna, hps]
  cases hm : nodeAt k p with
  | none => rfl
  | some m =>
    cases ho : pathOffsetSum k p with
    | none => rfl
    | some o =>
      simp only [Option.map_some']
      by_cases ht : m.ntype = .surface
      · simp only [ht, if_true]
        apply List.map_congr_left
        intro e _
        refine congrArg₂ _ rfl (congrArg₂ _ ?_ ?_) <;> omega
      · simp only [ht, if_false]

/-- C9: the traversal is exactly the flattening, over all current-subtree
paths in depth-first preorder (children in `current.children` list order),
of each reached node's drawable expansion placed at the caller origin plus
the sum of `current.{x,y}` over every node on the path plus the drawable's
own local offset; the public entry starts at origin `(0, 0)`; and the
traversal only depends on current state — a pending-side `move` does not
change it. -/
theorem c9_traversal_preorder (n : SceneNode) (lx ly : Int) (a b : Int) :
    scene_node_for_each_surface n lx ly
      = (specPaths n).flatMap (entriesAtPath n lx ly)
    ∧ wlr_scene_node_for_each_surface n = scene_node_for_each_surface n 0 0
    ∧ scene_node_for_each_surface (wlr_scene_node_move n a b) lx ly
      = scene_node_for_each_surface n lx ly := by
  refine ⟨?_, rfl, ?_⟩
  · induction n using sceneNode_strong_ind generalizing lx ly with
    | _ n IH =>
      obtain ⟨t, sid, p, c, pch, cch, subs, kids⟩ := n
      have hkidslt : sizeOf kids
          < sizeOf (SceneNode.mk t sid p c pch cch subs kids) :=
        kids_sizeOf_lt t sid p c pch cch subs kids
      have horder : ∀ order : List Nat,
          forEachOrder kids order (lx + c.x) (ly + c.y)
            = (specPathsOrder kids order).flatMap
                (entriesAtPath (SceneNode.mk t sid p c pch cch subs kids) lx ly) := by
        intro order
        induction order with
        | nil => simp only [forEachOrder, specPathsOrder, List.flatMap_nil]
        | cons i rest ihr =>
          simp only [forEachOrder, specPathsOrder, List.flatMap_append]
          rw [ihr]
          refine congrArg₂ _ ?_ rfl
          cases hk : lookupKid kids i with
          | none => simp
          | some k =>
            dsimp only
            have hklt : sizeOf k < sizeOf (SceneNode.mk t sid p c pch cch subs kids) := by
              have := lookupKid_sizeOf hk
              omega
            rw [IH k hklt (lx + c.x) (ly + c.y)]
            rw [flatMap_map_eq]
            refine congrArg _ (funext fun pth => ?_)
            exact (entriesAtPath_cons (n := SceneNode.mk t sid p c pch cch subs kids)
              (k := k) (i := i) hk lx ly pth).symm
      simp only [scene_node_for_each_surface, specPaths, List.flatMap_cons]
      rw [horder cch]
      rfl
  · obtain ⟨t, sid, p, c, pch, cch, subs, kids⟩ := n
    simp only [wlr_scene_node_move, scene_node_for_each_surface]

theorem flatMap_congr_mem {α β : Type} {l : List α} {f g : α → List β}
    (h : ∀ a ∈ l, f a = g a) : l.flatMap f = l.flatMap g := by
  induction l with
  | nil => rfl
  | cons a rest ih =>
    simp only [List.flatMap_cons]
    rw [h a (List.Mem.head _), ih (fun x hx => h x (List.mem_cons_of_mem _ hx))]

theorem notifsOf_append (a b : List DestroyEvent) :
    notifsOf (a ++ b) = notifsOf a ++ notifsOf b := by
  simp [notifsOf, List.filterMap_append]

theorem destroyKids_flatMap (kids : List (Nat × SceneNode)) (L : List Nat) :
    notifsOf (destroyKids kids L)
      = L.flatMap (fun i => match lookupKid kids i with
          | some k => notifsOf (wlr_scene_node_destroy (some k))
          | none => []) := by
  induction L with
  | nil => simp only [destroyKids, List.flatMap_nil]; rfl
  | cons i rest ih =>
    simp only [destroyKids, List.flatMap_cons, notifsOf_append]
    rw [ih]
    refine congrArg₂ _ ?_ rfl
    cases hk : lookupKid kids i with
    | none => rfl
    | some k => rfl

theorem keys_flatMap_lookup {kids : List (Nat × SceneNode)}
    (hnd : (kidKeys kids).Nodup) (g : SceneNode → List Nat) :
    (kidKeys kids).flatMap (fun i => match lookupKid kids i with
        | some k => g k
        | none => [])
      = kids.flatMap (fun q => g q.2) := by
  induction kids with
  | nil => rfl
  | cons q rest ih =>
    obtain ⟨j, k⟩ := q
    have hkeys : kidKeys ((j, k) :: rest) = j :: kidKeys rest := rfl
    rw [hkeys] at hnd ⊢
    have hj : j ∉ kidKeys rest := (List.nodup_cons.mp hnd).1
    have hrest : (kidKeys rest).Nodup := (List.nodup_cons.mp hnd).2
    simp only [List.flatMap_cons]
    have hhead : lookupKid ((j, k) :: rest) j = some k := by
      simp [lookupKid]
    rw [hhead]
    refine congrArg₂ _ rfl ?_
    rw [← ih hrest]
    apply flatMap_congr_mem
    intro i hi
    have hij : j ≠ i := fun h => hj (h ▸ hi)
    have : lookupKid ((j, k) :: rest) i = lookupKid rest i := by
      simp [lookupKid, hij]
    rw [this]

theorem kidsIds_eq_flatMap (kids : List (Nat × SceneNode)) :
    kidsIds kids = kids.flatMap (fun q => allIds q.2) := by
  induction kids with
  | nil => rfl
  | cons q rest ih =>
    obtain ⟨j, k⟩ := q
    simp only [kidsIds, List.flatMap_cons]
    rw [ih]

theorem wfKids_mem {kids : List (Nat × SceneNode)} {q : Nat × SceneNode}
    (hw : wfKids kids) (hq : q ∈ kids) : wfNode q.2 := by
  induction kids with
  | nil => cases hq
  | cons hd tl ih =>
    obtain ⟨j, k⟩ := hd
    rcases List.mem_cons.mp hq with h | h
    · subst h
      exact hw.1
    · exact ih hw.2 h

theorem notifsOf_tail (sid : Nat) (t : NodeType) :
    notifsOf ((if t = .surface then [DestroyEvent.unsubscribe sid] else [])
      ++ [DestroyEvent.free sid]) = [] := by
  by_cases ht : t = .surface <;> simp [ht, notifsOf]

/-- Parent-visible effect of `wlr_scene_node_destroy` on the child linked
under a parent with key `i`: `scene_node_state_finish`
(`src/types/wlr_scene.c:26-28`, run for both states at
`src/types/wlr_scene.c:59-60`) unlinks the child's `current.link` and
`pending.link` from whichever parent state lists hold them
(`wl_list_remove`), and the subsequent `free` removes the child object
itself from the parent's owned children. -/
def destroyChildInParent : SceneNode → Nat → SceneNode
  | .mk t sid p c pch cch subs kids, i =>
    .mk t sid p c (pch.erase i) (cch.erase i) subs
      (kids.filter (fun q => !(q.1 == i)))

theorem lookupKid_filter_ne {kids : List (Nat × SceneNode)} {i : Nat} :
    lookupKid (kids.filter (fun q => !(q.1 == i))) i = none := by
  induction kids with
  | nil => rfl
  | cons hd tl ih =>
    obtain ⟨j, k⟩ := hd
    by_cases hj : j = i
    · subst hj
      simpa [List.filter_cons] using ih
    · simp only [List.filter_cons]
      have hb : (!(j == i)) = true := by simp [hj]
      rw [if_pos hb]
      simp only [lookupKid, if_neg hj]
      exact ih

theorem lookupKid_filter_preserve {kids : List (Nat × SceneNode)} {i j : Nat}
    (hij : j ≠ i) :
    lookupKid (kids.filter (fun q => !(q.1 == i))) j = lookupKid kids j := by
  induction kids with
  | nil => rfl
  | cons hd tl ih =>
    obtain ⟨a, k⟩ := hd
    by_cases ha : a = i
    · subst ha
      have haj : ¬ a = j := fun h => hij (h.symm)
      simp only [List.filter_cons]
      rw [if_neg (by simp)]
      simp only [lookupKid, if_neg haj]
      exact ih
    · simp only [List.filter_cons]
      have hb : (!(a == i)) = true := by simp [ha]
      rw [if_pos hb]
      simp only [lookupKid]
      by_cases haj : a = j
      · simp [haj]
      · simp only [if_neg haj]
        exact ih

/-- Exactly-once destruction: for a well-formed subtree the sequence of
destroy notifications fired by `wlr_scene_node_destroy` is a permutation of
the subtree's node addresses. -/
theorem destroy_notifs_perm (n : SceneNode) (hwf : wfNode n) :
    (notifsOf (wlr_scene_node_destroy (some n))).Perm (allIds n) := by
  induction n using sceneNode_strong_ind with
  | _ n IH =>
    obtain ⟨t, sid, p, c, pch, cch, subs, kids⟩ := n
    obtain ⟨hc, hp, hk, hcs, hps, hT, hwk⟩ := hwf
    have hdes : wlr_scene_node_destroy (some (SceneNode.mk t sid p c pch cch subs kids))
        = scene_node_finish (SceneNode.mk t sid p c pch cch subs kids)
          ++ ((if t = .surface then [DestroyEvent.unsubscribe sid] else [])
            ++ [DestroyEvent.free sid]) := by
      simp only [wlr_scene_node_destroy, SceneNode.ntype, SceneNode.sid]
      rw [List.append_assoc]
    have hfin : scene_node_finish (SceneNode.mk t sid p c pch cch subs kids)
        = DestroyEvent.notify sid :: (destroyKids kids cch
            ++ destroyKids kids (pch.filter (fun i => !(cch.elem i)))) := by
      simp only [scene_node_finish]
    rw [hdes, notifsOf_append, hfin, notifsOf_tail, List.append_nil]
    have hnot : notifsOf (DestroyEvent.notify sid :: (destroyKids kids cch
        ++ destroyKids kids (pch.filter (fun i => !(cch.elem i)))))
        = sid :: notifsOf (destroyKids kids cch
            ++ destroyKids kids (pch.filter (fun i => !(cch.elem i)))) := rfl
    rw [hnot]
    show (sid :: _).Perm (sid :: kidsIds kids)
    apply List.Perm.cons
    rw [notifsOf_append, destroyKids_flatMap, destroyKids_flatMap,
      ← List.flatMap_append]
    have hLnd : (cch ++ pch.filter (fun i => !(cch.elem i))).Nodup := by
      refine hc.append (hp.filter _) ?_
      intro a ha hb
      have := (List.mem_filter.mp hb).2
      simp only [Bool.not_eq_true', List.elem_eq_mem, decide_eq_false_iff_not] at this
      exact this ha
    have hLperm : (cch ++ pch.filter (fun i => !(cch.elem i))).Perm (kidKeys kids) := by
      apply List.perm_of_nodup_nodup_toFinset_eq hLnd hk
      ext i
      simp only [List.mem_toFinset, List.mem_append, List.mem_filter,
        Bool.not_eq_true', List.elem_eq_mem, decide_eq_false_iff_not]
      constructor
      · rintro (h | ⟨h, _⟩)
        · exact hcs i h
        · exact hps i h
      · intro h
        by_cases hic : i ∈ cch
        · exact Or.inl hic
        · rcases hT i h with h1 | h1
          · exact absurd h1 hic
          · exact Or.inr ⟨h1, hic⟩
    refine ((hLperm.flatMap_right _).trans ?_)
    rw [keys_flatMap_lookup hk, kidsIds_eq_flatMap]
    apply List.Perm.flatMap_left
    intro q hq
    have hqlt : sizeOf q.2 < sizeOf (SceneNode.mk t sid p c pch cch subs kids) := by
      have h1 : sizeOf q.2 < sizeOf kids := by
        obtain ⟨i, k⟩ := q
        exact mem_kids_sizeOf hq
      have h2 := kids_sizeOf_lt t sid p c pch cch subs kids
      omega
    exact IH q.2 hqlt (wfKids_mem hwk hq)

/-- C8: destroying a null handle is a no-op; destroying a node first fires
that node's own destroy notification (it is the first event of the trace,
while the subtree is intact), fires the destroy notification of every node
of the subtree — every child reachable through `current.children` or
`pending.children`, a child in both lists destroyed once — exactly once,
detaches the destroyed node from any parent list it is linked into (it is
a member of neither `pending.children` nor `current.children` afterwards
and addresses no owned child, while every other child and its subtree is
untouched), and for a surface node removes the surface-destroy
subscription immediately before the final free (for a root node the trace
ends with the free alone). -/
theorem c8_destroy_exactly_once (n : SceneNode) (hwf : wfNode n)
    (hnd : (allIds n).Nodup) :
    wlr_scene_node_destroy none = []
    ∧ (wlr_scene_node_destroy (some n)).head? = some (.notify n.sid)
    ∧ (notifsOf (wlr_scene_node_destroy (some n))).Perm (allIds n)
    ∧ (notifsOf (wlr_scene_node_destroy (some n))).Nodup
    ∧ (n.ntype = .surface → ∃ pre, wlr_scene_node_destroy (some n)
        = pre ++ [.unsubscribe n.sid, .free n.sid])
    ∧ (n.ntype = .root → ∃ pre, wlr_scene_node_destroy (some n)
        = pre ++ [.free n.sid])
    ∧ (∀ (p : SceneNode) (i : Nat), wfNode p →
        i ∉ (destroyChildInParent p i).pendingCh
        ∧ i ∉ (destroyChildInParent p i).currentCh
        ∧ lookupKid (destroyChildInParent p i).kids i = none
        ∧ (∀ j, j ≠ i → j ∈ p.pendingCh →
            j ∈ (destroyChildInParent p i).pendingCh)
        ∧ (∀ j, j ≠ i → j ∈ p.currentCh →
            j ∈ (destroyChildInParent p i).currentCh)
        ∧ (∀ j, j ≠ i →
            lookupKid (destroyChildInParent p i).kids j = lookupKid p.kids j)) := by
  have hdetach : ∀ (p : SceneNode) (i : Nat), wfNode p →
      i ∉ (destroyChildInParent p i).pendingCh
      ∧ i ∉ (destroyChildInParent p i).currentCh
      ∧ lookupKid (destroyChildInParent p i).kids i = none
      ∧ (∀ j, j ≠ i → j ∈ p.pendingCh →
          j ∈ (destroyChildInParent p i).pendingCh)
      ∧ (∀ j, j ≠ i → j ∈ p.currentCh →
          j ∈ (destroyChildInParent p i).currentCh)
      ∧ (∀ j, j ≠ i →
          lookupKid (destroyChildInParent p i).kids j = lookupKid p.kids j) := by
    intro p i hwfp
    obtain ⟨t2, sid2, p2, c2, pch2, cch2, subs2, kids2⟩ := p
    obtain ⟨hc2, hp2, _hk2, _, _, _, _⟩ := hwfp
    refine ⟨?_, ?_, lookupKid_filter_ne, ?_, ?_, ?_⟩
    · intro h
      exact ((hp2.mem_erase_iff).mp h).1 rfl
    · intro h
      exact ((hc2.mem_erase_iff).mp h).1 rfl
    · intro j hji hj
      exact (List.mem_erase_of_ne hji).mpr hj
    · intro j hji hj
      exact (List.mem_erase_of_ne hji).mpr hj
    · intro j hji
      exact lookupKid_filter_preserve hji
  have hperm := destroy_notifs_perm n hwf
  obtain ⟨t, sid, p, c, pch, cch, subs, kids⟩ := n
  have hdes : wlr_scene_node_destroy (some (SceneNode.mk t sid p c pch cch subs kids))
      = scene_node_finish (SceneNode.mk t sid p c pch cch subs kids)
        ++ (if t = .surface then [DestroyEvent.unsubscribe sid] else [])
        ++ [DestroyEvent.free sid] := by
    simp only [wlr_scene_node_destroy, SceneNode.ntype, SceneNode.sid]
  have hfin : scene_node_finish (SceneNode.mk t sid p c pch cch subs kids)
      = DestroyEvent.notify sid :: (destroyKids kids cch
          ++ destroyKids kids (pch.filter (fun i => !(cch.elem i)))) := by
    simp only [scene_node_finish]
  refine ⟨by simp only [wlr_scene_node_destroy], ?_, hperm, hperm.symm.nodup hnd,
    ?_, ?_, hdetach⟩
  · rw [hdes, hfin]
    rfl
  · intro ht
    refine ⟨scene_node_finish (SceneNode.mk t sid p c pch cch subs kids), ?_⟩
    rw [hdes]
    simp only [SceneNode.ntype] at ht
    rw [ht]
    simp only [if_pos rfl, List.append_assoc]
    rfl
  · intro ht
    refine ⟨scene_node_finish (SceneNode.mk t sid p c pch cch subs kids)
      ++ (if t = .surface then [DestroyEvent.unsubscribe sid] else []), ?_⟩
    rw [hdes, List.append_assoc]
    rw [← List.append_assoc]
    rfl

/-- Witness for C8: on the concrete example tree the destroy notifications
are a permutation of all node addresses, the root's own notification comes
first, and destroying the child with key 1 leaves it in neither of the
parent's children lists while child 2 keeps its pending linkage. -/
theorem c8_witness :
    (notifsOf (wlr_scene_node_destroy (some exParent))).Perm (allIds exParent)
    ∧ (wlr_scene_node_destroy (some exParent)).head?
        = some (.notify exParent.sid)
    ∧ 1 ∉ (destroyChildInParent exParent 1).pendingCh
    ∧ 1 ∉ (destroyChildInParent exParent 1).currentCh
    ∧ lookupKid (destroyChildInParent exParent 1).kids 1 = none
    ∧ 2 ∈ (destroyChildInParent exParent 1).pendingCh := by
  have hwf : wfNode exParent :=
    ⟨by decide, by decide, by decide, by decide, by decide, by decide,
      ⟨by decide, by decide, by decide, by decide, by decide, by decide, trivial⟩,
      ⟨by decide, by decide, by decide, by decide, by decide, by decide, trivial⟩,
      ⟨by decide, by decide, by decide, by decide, by decide, by decide, trivial⟩,
      trivial⟩
  have hnd : (allIds exParent).Nodup := by decide
  have hdet := (c8_destroy_exactly_once exParent hwf hnd).2.2.2.2.2.2 exParent 1 hwf
  exact ⟨(c8_destroy_exactly_once exParent hwf hnd).2.2.1,
    (c8_destroy_exactly_once exParent hwf hnd).2.1,
    hdet.1, hdet.2.1, hdet.2.2.1,
    hdet.2.2.2.1 2 (by decide) (by decide)⟩

end WlrScene
